import Mathlib

/-!
Verification of the tile-geometry and density-rendering pipeline of
`heatmaps/generate.py` (triphappy heatmap tile generator).

The Python source is shallowly embedded: the Mercator projector becomes
functions on real numbers, the per-venue edge-bleed neighbor logic and the
canvas slicer become pure list functions over the integers and rationals,
the in-place noise-removal loop becomes a fold over the reversed index
range, and the orchestration loops become list traversals parameterized by
an abstract per-unit generator (the database fetch, the sklearn DBSCAN
labelling and the C rasterizer are external collaborators, so they enter
as function parameters).
-/

open Real

namespace Heatmap

/-! # Definitions -/

/-! ## Global parameters (lines 35-53 of generate.py) -/

def MIN_ZOOM : ℕ := 10

def MAX_ZOOM : ℕ := 16

def ZOOM_STEP : ℕ := 1

def RADIUS : ℕ := 17500

def TILE_RESOLUTION : ℕ := 256

/-- Per-zoom configuration record, one row of the ZOOM_PARAMETERS dict. -/
structure ZoomParams where
  dotsize : ℕ
  opacity : ℚ
  cluster : Bool
  cluster_epsilon : ℚ
  cluster_neighbors : ℕ
  deriving DecidableEq

/-- The ZOOM_PARAMETERS dict of generate.py (keys 10..18).  The Python dict
raises KeyError for other zoom levels; the model returns an inert default
row there (all callers in the source use zoom levels 10..16). -/
def ZOOM_PARAMETERS : ℕ → ZoomParams
  | 10 => ⟨10, 1, true, 1/2, 4⟩
  | 11 => ⟨10, 1, true, 1/2, 4⟩
  | 12 => ⟨15, 1, true, 1/2, 4⟩
  | 13 => ⟨15, 1, true, 13/20, 4⟩
  | 14 => ⟨20, 1, true, 13/20, 4⟩
  | 15 => ⟨40, 1, true, 4/5, 4⟩
  | 16 => ⟨60, 1, true, 4/5, 4⟩
  | 17 => ⟨80, 1, false, 1, 1⟩
  | 18 => ⟨100, 1, false, 1, 2⟩
  | _ => ⟨0, 1, false, 1, 0⟩

/-! ## Mercator projector (lines 57-90) -/

/-- Embedding of convert_coords_to_mercator_point: forward spherical
Pseudo-Mercator projection at a zoom level, (lat, lng) to point (x, y). -/
noncomputable def convert_coords_to_mercator_point (lat lng : ℝ) (zoom : ℕ) : ℝ × ℝ :=
  let mapWidth : ℝ := 2 ^ zoom
  let mapHeight : ℝ := 2 ^ zoom
  let x := (lng + 180) * (mapWidth / 360)
  let latRad := lat * (π / 180)
  let mercN := Real.log (Real.tan (latRad / 2 + π / 4))
  let y := mapHeight / 2 - mercN * mapWidth / (2 * π)
  (x, y)

/-- Embedding of convert_coords_to_tile: floor both Mercator components to
integers (np.floor floors towards negative infinity), giving the tile whose
NW corner is at or before the point. -/
noncomputable def convert_coords_to_tile (lat lng : ℝ) (zoom : ℕ) : ℤ × ℤ :=
  let point := convert_coords_to_mercator_point lat lng zoom
  (⌊point.1⌋, ⌊point.2⌋)

/-- Embedding of convert_point_to_coords: inverse projection, Mercator point
(x, y) at a zoom level back to (lat, lng). -/
noncomputable def convert_point_to_coords (x y : ℝ) (zoom : ℕ) : ℝ × ℝ :=
  let mapWidth : ℝ := 2 ^ zoom
  let mapHeight : ℝ := 2 ^ zoom
  let lng := x * 360 / mapWidth - 180
  let mercN := (mapHeight / 2 - y) * (2 * π) / mapWidth
  let latRad := (Real.arctan (Real.exp mercN) - π / 4) * 2
  let lat := latRad * 180 / π
  (lat, lng)

/-- Embedding of convert_coords_to_mercator_point with the error path of
math.log made explicit: math.log raises ValueError on a nonpositive float,
which the total definition above collapses to a junk value; here the call
returns none exactly when the tangent in the y formula is nonpositive (at
lat = -90 the tangent is exactly zero, so math.log(0.0) raises in the
source), and otherwise the projected point of the total definition. -/
noncomputable def convert_coords_to_mercator_point_opt (lat lng : ℝ)
    (zoom : ℕ) : Option (ℝ × ℝ) :=
  let mapWidth : ℝ := 2 ^ zoom
  let mapHeight : ℝ := 2 ^ zoom
  let x := (lng + 180) * (mapWidth / 360)
  let latRad := lat * (π / 180)
  if Real.tan (latRad / 2 + π / 4) ≤ 0 then none
  else
    let mercN := Real.log (Real.tan (latRad / 2 + π / 4))
    let y := mapHeight / 2 - mercN * mapWidth / (2 * π)
    some (x, y)

/-! ## Noise removal loop (lines 191-195 and 347-351)

The Python loop walks the DBSCAN label list in reverse index order and, for
every index labelled -1, calls pts.remove(pts[idx]) on the mutating list,
which deletes the first occurrence equal to the element currently sitting
at that index. -/

section Noise

variable {P : Type} [DecidableEq P] [Inhabited P]

/-- One iteration of the removal loop at index idx: if the label at idx is
-1, remove the first occurrence of the element currently at position idx. -/
def noiseStep (labels : List ℤ) (cur : List P) (idx : ℕ) : List P :=
  if labels.getD idx 0 = -1 then cur.erase (cur.getD idx default) else cur

/-- Embedding of the reverse-enumeration removal loop: fold noiseStep over
the indices of the label list from high to low, starting from the fetched
point list. -/
def removeNoise (pts : List P) (labels : List ℤ) : List P :=
  ((List.range labels.length).reverse).foldl (noiseStep labels) pts

/-- The pure filter the spec re-expresses the loop as: keep, in order,
exactly the points whose label is not -1. -/
def filterNoise (pts : List P) (labels : List ℤ) : List P :=
  (pts.zip labels).filterMap fun pl => if pl.2 = -1 then none else some pl.1

end Noise

/-! ## Edge-bleed resolver (lines 203-259) -/

/-- Embedding of the "if tile not in tiles: tiles.append(tile)" idiom. -/
def addIfNew (tiles : List (ℤ × ℤ)) (t : ℤ × ℤ) : List (ℤ × ℤ) :=
  if t ∈ tiles then tiles else tiles ++ [t]

/-- Embedding of the neighbor-growing conditionals of
generate_heatmap_by_city (lines 219-259): given the dot radius and the
venue's normalized pixel position inside tile (x, y), append the missing
compass neighbors whose border condition fires, in source order
(west, north-west, south-west, north, east, north-east, south-east,
south).  Generic in the ordered field so the same code runs over the reals
in the pipeline and over the rationals in decidable instances. -/
def neighborStep {K : Type} [LinearOrderedField K] (dotsize : K) (x y : ℤ)
    (pixel_x pixel_y : K) (tiles : List (ℤ × ℤ)) : List (ℤ × ℤ) :=
  let t1 :=
    if pixel_x < dotsize then
      let a1 := addIfNew tiles (x - 1, y)
      let a2 := if pixel_y < dotsize then addIfNew a1 (x - 1, y - 1) else a1
      if (TILE_RESOLUTION : K) - pixel_y < dotsize then
        addIfNew a2 (x - 1, y + 1)
      else a2
    else tiles
  let t2 := if pixel_y < dotsize then addIfNew t1 (x, y - 1) else t1
  let t3 :=
    if (TILE_RESOLUTION : K) - pixel_x < dotsize then
      let a1 := addIfNew t2 (x + 1, y)
      let a2 := if pixel_y < dotsize then addIfNew a1 (x + 1, y - 1) else a1
      if (TILE_RESOLUTION : K) - pixel_y < dotsize then
        addIfNew a2 (x + 1, y + 1)
      else a2
    else t2
  if (TILE_RESOLUTION : K) - pixel_y < dotsize then addIfNew t3 (x, y + 1)
  else t3

/-! ## Canvas compositor (lines 264-307)

The city-wide canvas spans the bounding rectangle of the working tile set;
the rendered canvas is cut into TILE_RESOLUTION-sized crops, one per grid
cell whose tile is a member of the working set. -/

/-- Minimum of an integer list, mirroring the Python min over a nonempty
list (the 0 default is never reached by the pipeline, which only takes the
minimum of nonempty tile lists). -/
def listMinD (l : List ℤ) : ℤ :=
  match l with
  | [] => 0
  | a :: t => t.foldl min a

/-- Maximum of an integer list, same convention as listMinD. -/
def listMaxD (l : List ℤ) : ℤ :=
  match l with
  | [] => 0
  | a :: t => t.foldl max a

/-- NW corner of the bounding tile rectangle (componentwise minima, line
265). -/
def nwTile (tiles : List (ℤ × ℤ)) : ℤ × ℤ :=
  (listMinD (tiles.map Prod.fst), listMinD (tiles.map Prod.snd))

/-- SE corner of the bounding tile rectangle (componentwise maxima, line
266). -/
def seTile (tiles : List (ℤ × ℤ)) : ℤ × ℤ :=
  (listMaxD (tiles.map Prod.fst), listMaxD (tiles.map Prod.snd))

/-- Number of tile columns covering the bounding box (line 273). -/
def numXTiles (tiles : List (ℤ × ℤ)) : ℕ :=
  ((seTile tiles).1 - (nwTile tiles).1 + 1).toNat

/-- Number of tile rows covering the bounding box (line 274). -/
def numYTiles (tiles : List (ℤ × ℤ)) : ℕ :=
  ((seTile tiles).2 - (nwTile tiles).2 + 1).toNat

/-- Embedding of the slicing double loop (lines 295-307): for each grid
cell (i, j) of the bounding rectangle, if the corresponding tile is in the
working set, emit its key together with the crop rectangle handed to
img.crop. -/
def sliceCity (tiles : List (ℤ × ℤ)) : List ((ℤ × ℤ) × (ℤ × ℤ × ℤ × ℤ)) :=
  (List.range (numXTiles tiles)).flatMap fun (i : ℕ) =>
    (List.range (numYTiles tiles)).filterMap fun (j : ℕ) =>
      if ((nwTile tiles).1 + (i : ℤ), (nwTile tiles).2 + (j : ℤ)) ∈ tiles then
        some (((nwTile tiles).1 + (i : ℤ), (nwTile tiles).2 + (j : ℤ)),
          ((TILE_RESOLUTION : ℤ) * (i : ℤ), (TILE_RESOLUTION : ℤ) * (j : ℤ),
            (TILE_RESOLUTION : ℤ) * ((i : ℤ) + 1),
            (TILE_RESOLUTION : ℤ) * ((j : ℤ) + 1)))
      else none

/-! ## Density filtering step of the city pipeline (lines 186-197) -/

/-- Kilometers per radian on the mean Earth sphere (line 188). -/
noncomputable def kms_per_radian : ℝ := 6371.0088

/-- Embedding of the clustering branch of generate_heatmap_by_city (lines
186-197): when the zoom profile enables clustering, fit DBSCAN (external,
passed as a function) with eps equal to the profile epsilon divided by
kms_per_radian and min_samples equal to the profile neighbor count, then
run the in-place noise-removal loop; otherwise pass the points through. -/
noncomputable def clusterFilter {P : Type} [DecidableEq P] [Inhabited P]
    (zoom : ℕ)
    (dbscan : ℝ → ℕ → List P → List ℤ) (pts : List P) : List P :=
  if (ZOOM_PARAMETERS zoom).cluster then
    removeNoise pts
      (dbscan (((ZOOM_PARAMETERS zoom).cluster_epsilon : ℝ) / kms_per_radian)
        (ZOOM_PARAMETERS zoom).cluster_neighbors pts)
  else pts

/-! ## City pipeline (lines 168-313)

Venues arrive from the database as (lng, lat) pairs; the external fetch and
the external DBSCAN labelling enter as parameters. -/

/-- Embedding of the per-venue part of the tile-collection loop (lines
203-259): add the venue's own tile, normalize the venue into tile pixel
coordinates, and grow the set with the bleeding neighbors. -/
noncomputable def venueUpdate (zoom : ℕ) (tiles : List (ℤ × ℤ))
    (venue : ℝ × ℝ) : List (ℤ × ℤ) :=
  let tile := convert_coords_to_tile venue.2 venue.1 zoom
  let tiles1 := addIfNew tiles tile
  let min_coords := convert_point_to_coords (tile.1 : ℝ) ((tile.2 : ℝ) + 1) zoom
  let max_coords := convert_point_to_coords ((tile.1 : ℝ) + 1) (tile.2 : ℝ) zoom
  let pixel_y := ((max_coords.1 - venue.2) / (max_coords.1 - min_coords.1)) *
    ((TILE_RESOLUTION : ℝ) - 1)
  let pixel_x := ((venue.1 - min_coords.2) / (max_coords.2 - min_coords.2)) *
    ((TILE_RESOLUTION : ℝ) - 1)
  neighborStep ((ZOOM_PARAMETERS zoom).dotsize : ℝ) tile.1 tile.2 pixel_x
    pixel_y tiles1

/-- The working tile set built from all venues (lines 202-259). -/
noncomputable def buildTiles (zoom : ℕ) (pts : List (ℝ × ℝ)) :
    List (ℤ × ℤ) :=
  pts.foldl (venueUpdate zoom) []

/-- Lexicographic tile comparison, the order Python sorted() uses on pairs
(line 262). -/
def tileLexLe (a b : ℤ × ℤ) : Bool :=
  a.1 < b.1 || (a.1 = b.1 && a.2 ≤ b.2)

/-- Embedding of generate_heatmap_by_city for one (category, zoom) unit,
given the fetched venue list (the database query is external): returns the
list of uploaded tile keys (category, zoom, x, y).  Zero fetched venues or
zero venues after clustering produce no renders and no uploads (and the
function is total: no error path exists in either case). -/
noncomputable def cityRun (category zoom : ℕ)
    (dbscan : ℝ → ℕ → List (ℝ × ℝ) → List ℤ) (pts0 : List (ℝ × ℝ)) :
    List (ℕ × ℕ × ℤ × ℤ) :=
  if 0 < pts0.length then
    let pts := clusterFilter zoom dbscan pts0
    if 0 < pts.length then
      let tiles := (buildTiles zoom pts).mergeSort tileLexLe
      (sliceCity tiles).map fun e => (category, zoom, e.1.1, e.1.2)
    else []
  else []

/-! ## Orchestration (lines 97-133) -/

/-- The category loop range(1, 5) of the source. -/
def catRange : List ℕ := [1, 2, 3, 4]

/-- The zoom loop range(MIN_ZOOM, MAX_ZOOM + 1, ZOOM_STEP); with the
configured step 1 this is the 7 zoom levels 10..16. -/
def zoomRange : List ℕ := List.range' MIN_ZOOM (MAX_ZOOM + 1 - MIN_ZOOM) ZOOM_STEP

/-- generate_all_heatmaps_by_tile with run_method RUN_BY_CATEGORY: all
zooms of a category before the next category, with the per-unit generation
abstracted as a deterministic function of (category, zoom). -/
def runByCategoryTiles {α : Type} (gen : ℕ → ℕ → List α) : List α :=
  catRange.flatMap fun cat => zoomRange.flatMap fun z => gen cat z

/-- generate_all_heatmaps_by_tile with run_method RUN_BY_ZOOM: all
categories of a zoom before the next zoom. -/
def runByZoomTiles {α : Type} (gen : ℕ → ℕ → List α) : List α :=
  zoomRange.flatMap fun z => catRange.flatMap fun cat => gen cat z

/-- Embedding of the try/except body of generate_all_heatmaps_by_city
(lines 117-122 and 126-131): run the unit at the full radius; on failure
(modelled as none) run it once more at the radius reduced by 2500.  The
second call sits outside any handler. -/
def cityUnit {α : Type} (f : ℕ → ℕ → ℕ → Option α) (cat z : ℕ) : Option α :=
  match f cat z RADIUS with
  | some r => some r
  | none => f cat z (RADIUS - 2500)

/-- Unit order of generate_all_heatmaps_by_city with RUN_BY_CATEGORY. -/
def orderByCategory : List (ℕ × ℕ) :=
  catRange.flatMap fun cat => zoomRange.map fun z => (cat, z)

/-- Unit order of generate_all_heatmaps_by_city with RUN_BY_ZOOM. -/
def orderByZoom : List (ℕ × ℕ) :=
  zoomRange.flatMap fun z => catRange.map fun cat => (cat, z)

/-- Run the city units in the given order: a unit whose retry also fails
raises out of the loop, so the run stops there, reporting the failing unit
and keeping only the outputs produced before it. -/
def runCityAux {α : Type} (f : ℕ → ℕ → ℕ → Option (List α)) :
    List (ℕ × ℕ) → List α × Option (ℕ × ℕ)
  | [] => ([], none)
  | u :: rest =>
    match cityUnit f u.1 u.2 with
    | some r => ((r ++ (runCityAux f rest).1 : List α), (runCityAux f rest).2)
    | none => ([], some u)

/-! ## Claim C8: density-filter idempotence (DBSCAN modelled from the spec)

The clustering routine itself is the external sklearn DBSCAN; the spec
fixes its contract (haversine distance, epsilon in radians, minimum
neighbor count, noise dropped), so the labelling is modelled here by the
standard DBSCAN semantics over an abstract symmetric distance. -/

section Density

variable {P : Type}

/-- Modelled from the spec: the sklearn DBSCAN labelling is external to the
repository; with distance d, radius eps and threshold m, a point is a core
point when at least m points of the data set (itself included) lie within
eps of it. -/
def isCore (d : P → P → ℚ) (eps : ℚ) (m : ℕ) (pts : List P) (p : P) : Bool :=
  decide (m ≤ pts.countP fun q => decide (d p q ≤ eps))

/-- Modelled from the spec: a point receives a non-noise cluster label
exactly when it is a core point or lies within eps of a core point. -/
def notNoise (d : P → P → ℚ) (eps : ℚ) (m : ℕ) (pts : List P) (p : P) : Bool :=
  isCore d eps m pts p ||
    pts.any fun q => isCore d eps m pts q && decide (d p q ≤ eps)

/-- Modelled from the spec: filterByDensity retains exactly the non-noise
points of the data set, in order. -/
def filterByDensity (d : P → P → ℚ) (eps : ℚ) (m : ℕ) (pts : List P) :
    List P :=
  pts.filter (notNoise d eps m pts)

end Density

/-! # Helper lemmas -/

/-- For latitudes strictly between the poles the tangent in the Mercator y
formula is positive, so math.log is on its good path. -/
lemma tan_lat_theta_pos (lat : ℝ) (h1 : -90 < lat) (h2 : lat < 90) :
    0 < Real.tan (lat * (π / 180) / 2 + π / 4) := by
  have hπ := Real.pi_pos
  have hθ0 : 0 < lat * (π / 180) / 2 + π / 4 := by nlinarith
  have hθ1 : lat * (π / 180) / 2 + π / 4 < π / 2 := by nlinarith
  exact Real.tan_pos_of_pos_of_lt_pi_div_two hθ0 hθ1

/-- Away from the poles the guarded forward projection succeeds and agrees
with the total formula. -/
lemma mercator_point_opt_eq_some (lat lng : ℝ) (zoom : ℕ)
    (h1 : -90 < lat) (h2 : lat < 90) :
    convert_coords_to_mercator_point_opt lat lng zoom =
      some (convert_coords_to_mercator_point lat lng zoom) := by
  have htan := tan_lat_theta_pos lat h1 h2
  simp only [convert_coords_to_mercator_point_opt,
    convert_coords_to_mercator_point]
  rw [if_neg (not_le.mpr htan)]

section NoiseLemmas

variable {P : Type} [DecidableEq P] [Inhabited P]

lemma removeNoise_aux (labels : List ℤ) (pts : List P) (hnd : pts.Nodup) :
    ∀ (k : ℕ) (acc : List P), k ≤ pts.length → k ≤ labels.length →
      (∀ a ∈ acc, a ∉ pts.take k) →
      ((List.range k).reverse).foldl (noiseStep labels) (pts.take k ++ acc) =
        filterNoise (pts.take k) (labels.take k) ++ acc := by
  intro k
  induction k with
  | zero => intro acc _ _ _; simp [filterNoise]
  | succ k ih =>
    intro acc hk hkl hacc
    have hklt : k < pts.length := hk
    have hkllt : k < labels.length := hkl
    have htake : pts.take (k + 1) = pts.take k ++ [pts[k]] := by
      rw [List.take_succ, List.getElem?_eq_getElem hklt]
      rfl
    have hltake : labels.take (k + 1) = labels.take k ++ [labels[k]] := by
      rw [List.take_succ, List.getElem?_eq_getElem hkllt]
      rfl
    have hlen_take : (pts.take (k + 1)).length = k + 1 := by
      rw [List.length_take]
      omega
    have hlen_take_k : (pts.take k).length = k := by
      rw [List.length_take]
      omega
    have hlen_ltake_k : (labels.take k).length = k := by
      rw [List.length_take]
      omega
    have hmem_pk : pts[k] ∈ pts.take (k + 1) := by
      rw [htake]
      exact List.mem_append_right _ (List.mem_singleton_self _)
    have hnot_pk : pts[k] ∉ pts.take k := by
      have hnd1 : (pts.take (k + 1)).Nodup := (List.take_sublist _ _).nodup hnd
      rw [htake] at hnd1
      have hdisj := (List.nodup_append.mp hnd1).2.2
      intro hmem
      exact hdisj hmem (List.mem_singleton_self _)
    have hgetD :
        (pts.take (k + 1) ++ acc).getD k default = pts[k] := by
      rw [List.getD_append _ _ _ k (by omega),
        List.getD_eq_getElem _ _ (by omega), List.getElem_take]
    rw [List.range_succ, List.reverse_append]
    simp only [List.reverse_singleton, List.singleton_append, List.foldl_cons]
    by_cases hlab : labels.getD k 0 = -1
    · have hstep :
          noiseStep labels (pts.take (k + 1) ++ acc) k = pts.take k ++ acc := by
        rw [noiseStep, if_pos hlab, hgetD,
          List.erase_append_left _ hmem_pk, htake,
          List.erase_append_right _ hnot_pk, List.erase_cons_head,
          List.append_nil]
      rw [hstep, ih acc (by omega) (by omega)
        (fun a ha => fun hmem => hacc a ha (htake ▸ List.mem_append_left _ hmem))]
      have hfilter :
          filterNoise (pts.take (k + 1)) (labels.take (k + 1)) =
            filterNoise (pts.take k) (labels.take k) := by
        rw [filterNoise, htake, hltake,
          List.zip_append (by rw [hlen_take_k, hlen_ltake_k]),
          List.filterMap_append]
        have : labels[k] = -1 := by
          rw [← List.getD_eq_getElem labels 0 hkllt]
          exact hlab
        simp [filterNoise, this]
      rw [hfilter]
    · have hstep :
          noiseStep labels (pts.take (k + 1) ++ acc) k =
            pts.take k ++ (pts[k] :: acc) := by
        rw [noiseStep, if_neg hlab, htake, List.append_assoc]
        rfl
      rw [hstep, ih (pts[k] :: acc) (by omega) (by omega) ?hacc]
      case hacc =>
        intro a ha
        rcases List.mem_cons.mp ha with h | h
        · rw [h]; exact hnot_pk
        · exact fun hmem => hacc a h (htake ▸ List.mem_append_left _ hmem)
      have hfilter :
          filterNoise (pts.take (k + 1)) (labels.take (k + 1)) =
            filterNoise (pts.take k) (labels.take k) ++ [pts[k]] := by
        rw [filterNoise, htake, hltake,
          List.zip_append (by rw [hlen_take_k, hlen_ltake_k]),
          List.filterMap_append]
        have : ¬ labels[k] = -1 := by
          rw [← List.getD_eq_getElem labels 0 hkllt]
          exact hlab
        simp [filterNoise, this]
      rw [hfilter, List.append_assoc]
      rfl

/-- On a duplicate-free point list the in-place removal loop computes the
pure filter. -/
lemma removeNoise_eq_filterNoise (pts : List P) (labels : List ℤ)
    (hnd : pts.Nodup) (hlen : labels.length = pts.length) :
    removeNoise pts labels = filterNoise pts labels := by
  have h := removeNoise_aux labels pts hnd pts.length [] le_rfl (by omega)
    (by simp)
  rw [removeNoise, hlen]
  have h2 : labels.take pts.length = labels := by rw [← hlen, List.take_length]
  simpa [List.take_length, h2] using h

/-- When every label is -1 every iteration of the loop removes exactly one
element, so the loop empties the list even when it holds duplicates. -/
lemma removeNoise_all_noise (pts : List P) (labels : List ℤ)
    (hlen : labels.length = pts.length)
    (hall : ∀ i, i < labels.length → labels.getD i 0 = -1) :
    removeNoise pts labels = [] := by
  suffices h : ∀ (k : ℕ) (cur : List P), k ≤ labels.length → cur.length = k →
      ((List.range k).reverse).foldl (noiseStep labels) cur = [] by
    exact h labels.length pts le_rfl hlen.symm
  intro k
  induction k with
  | zero => intro cur _ hcur; simpa using List.length_eq_zero.mp hcur
  | succ k ih =>
    intro cur hk hcur
    rw [List.range_succ, List.reverse_append]
    simp only [List.reverse_singleton, List.singleton_append, List.foldl_cons]
    have hmem : cur.getD k default ∈ cur := by
      rw [List.getD_eq_getElem _ _ (by omega)]
      exact List.getElem_mem _
    have hstep : noiseStep labels cur k = cur.erase (cur.getD k default) := by
      rw [noiseStep, if_pos (hall k (by omega))]
    rw [hstep]
    exact ih _ (by omega) (by rw [List.length_erase_of_mem hmem]; omega)

end NoiseLemmas

lemma mem_addIfNew (tiles : List (ℤ × ℤ)) (t u : ℤ × ℤ) :
    u ∈ addIfNew tiles t ↔ u ∈ tiles ∨ u = t := by
  rw [addIfNew]
  split_ifs with h
  · constructor
    · exact fun hu => Or.inl hu
    · rintro (hu | hu)
      · exact hu
      · exact hu ▸ h
  · simp [List.mem_append]

/-- Membership characterization of the neighbor-growing step: a tile is in
the output iff it was already present or one of the eight border conditions
fires for its direction. -/
lemma mem_neighborStep {K : Type} [LinearOrderedField K] (d : K) (x y : ℤ)
    (px py : K) (tiles : List (ℤ × ℤ)) (t : ℤ × ℤ) :
    t ∈ neighborStep d x y px py tiles ↔
      (t ∈ tiles ∨
        (px < d ∧ t = (x - 1, y)) ∨
        (px < d ∧ py < d ∧ t = (x - 1, y - 1)) ∨
        (px < d ∧ (TILE_RESOLUTION : K) - py < d ∧ t = (x - 1, y + 1)) ∨
        (py < d ∧ t = (x, y - 1)) ∨
        ((TILE_RESOLUTION : K) - px < d ∧ t = (x + 1, y)) ∨
        ((TILE_RESOLUTION : K) - px < d ∧ py < d ∧ t = (x + 1, y - 1)) ∨
        ((TILE_RESOLUTION : K) - px < d ∧ (TILE_RESOLUTION : K) - py < d ∧
          t = (x + 1, y + 1)) ∨
        ((TILE_RESOLUTION : K) - py < d ∧ t = (x, y + 1))) := by
  by_cases h1 : px < d <;> by_cases h2 : py < d <;>
    by_cases h3 : (TILE_RESOLUTION : K) - py < d <;>
    by_cases h4 : (TILE_RESOLUTION : K) - px < d <;>
      simp only [neighborStep, h1, h2, h3, h4, if_true, if_false,
        mem_addIfNew, true_and, false_and, or_false, false_or, or_assoc]

lemma foldl_min_le_init : ∀ (t : List ℤ) (a : ℤ), t.foldl min a ≤ a := by
  intro t
  induction t with
  | nil => intro a; simp
  | cons c t ih =>
    intro a
    calc (c :: t).foldl min a = t.foldl min (min a c) := by rw [List.foldl_cons]
    _ ≤ min a c := ih (min a c)
    _ ≤ a := min_le_left a c

lemma foldl_min_le_mem : ∀ (t : List ℤ) (a b : ℤ), b ∈ t → t.foldl min a ≤ b := by
  intro t
  induction t with
  | nil => intro a b hb; cases hb
  | cons c t ih =>
    intro a b hb
    rcases List.mem_cons.mp hb with h | h
    · rw [h, List.foldl_cons]
      exact le_trans (foldl_min_le_init t (min a c)) (min_le_right a c)
    · rw [List.foldl_cons]
      exact ih (min a c) b h

lemma init_le_foldl_max : ∀ (t : List ℤ) (a : ℤ), a ≤ t.foldl max a := by
  intro t
  induction t with
  | nil => intro a; simp
  | cons c t ih =>
    intro a
    calc a ≤ max a c := le_max_left a c
    _ ≤ t.foldl max (max a c) := ih (max a c)
    _ = (c :: t).foldl max a := by rw [List.foldl_cons]

lemma mem_le_foldl_max : ∀ (t : List ℤ) (a b : ℤ), b ∈ t → b ≤ t.foldl max a := by
  intro t
  induction t with
  | nil => intro a b hb; cases hb
  | cons c t ih =>
    intro a b hb
    rcases List.mem_cons.mp hb with h | h
    · rw [h, List.foldl_cons]
      exact le_trans (le_max_right a c) (init_le_foldl_max t (max a c))
    · rw [List.foldl_cons]
      exact ih (max a c) b h

lemma listMinD_le_mem (l : List ℤ) (b : ℤ) (hb : b ∈ l) : listMinD l ≤ b := by
  cases l with
  | nil => cases hb
  | cons a t =>
    rcases List.mem_cons.mp hb with h | h
    · rw [h]; exact foldl_min_le_init t a
    · exact foldl_min_le_mem t a b h

lemma mem_le_listMaxD (l : List ℤ) (b : ℤ) (hb : b ∈ l) : b ≤ listMaxD l := by
  cases l with
  | nil => cases hb
  | cons a t =>
    rcases List.mem_cons.mp hb with h | h
    · rw [h]; exact init_le_foldl_max t a
    · exact mem_le_foldl_max t a b h

lemma tile_mem_bounds (tiles : List (ℤ × ℤ)) (t : ℤ × ℤ) (ht : t ∈ tiles) :
    (nwTile tiles).1 ≤ t.1 ∧ t.1 ≤ (seTile tiles).1 ∧
      (nwTile tiles).2 ≤ t.2 ∧ t.2 ≤ (seTile tiles).2 :=
  ⟨listMinD_le_mem _ _ (List.mem_map_of_mem Prod.fst ht),
    mem_le_listMaxD _ _ (List.mem_map_of_mem Prod.fst ht),
    listMinD_le_mem _ _ (List.mem_map_of_mem Prod.snd ht),
    mem_le_listMaxD _ _ (List.mem_map_of_mem Prod.snd ht)⟩

lemma mem_sliceCity (tiles : List (ℤ × ℤ)) (x y : ℤ) (rect : ℤ × ℤ × ℤ × ℤ) :
    ((x, y), rect) ∈ sliceCity tiles ↔
      ((x, y) ∈ tiles ∧
        rect = ((TILE_RESOLUTION : ℤ) * (x - (nwTile tiles).1),
          (TILE_RESOLUTION : ℤ) * (y - (nwTile tiles).2),
          (TILE_RESOLUTION : ℤ) * (x - (nwTile tiles).1 + 1),
          (TILE_RESOLUTION : ℤ) * (y - (nwTile tiles).2 + 1))) := by
  constructor
  · intro h
    rw [sliceCity, List.mem_flatMap] at h
    obtain ⟨i, hi, h2⟩ := h
    rw [List.mem_filterMap] at h2
    obtain ⟨j, hj, hsome⟩ := h2
    by_cases hmem :
        ((nwTile tiles).1 + (i : ℤ), (nwTile tiles).2 + (j : ℤ)) ∈ tiles
    · rw [if_pos hmem] at hsome
      have h3 := Option.some.inj hsome
      rw [Prod.mk.injEq] at h3
      obtain ⟨hkey, hrect⟩ := h3
      rw [Prod.mk.injEq] at hkey
      obtain ⟨hx, hy⟩ := hkey
      have hix : (i : ℤ) = x - (nwTile tiles).1 := by omega
      have hjy : (j : ℤ) = y - (nwTile tiles).2 := by omega
      refine ⟨by rw [← hx, ← hy]; exact hmem, ?_⟩
      rw [← hrect, hix, hjy]
    · rw [if_neg hmem] at hsome
      exact absurd hsome (by simp)
  · rintro ⟨hmem, hrect⟩
    have hb := tile_mem_bounds tiles (x, y) hmem
    obtain ⟨hb1, hb2, hb3, hb4⟩ := hb
    simp only at hb1 hb2 hb3 hb4
    rw [sliceCity, List.mem_flatMap]
    have hnumx :
        (numXTiles tiles : ℤ) = (seTile tiles).1 - (nwTile tiles).1 + 1 := by
      rw [numXTiles]
      omega
    have hnumy :
        (numYTiles tiles : ℤ) = (seTile tiles).2 - (nwTile tiles).2 + 1 := by
      rw [numYTiles]
      omega
    refine ⟨(x - (nwTile tiles).1).toNat, List.mem_range.mpr (by omega), ?_⟩
    rw [List.mem_filterMap]
    refine ⟨(y - (nwTile tiles).2).toNat, List.mem_range.mpr (by omega), ?_⟩
    have hcx : (((x - (nwTile tiles).1).toNat : ℤ)) = x - (nwTile tiles).1 := by
      omega
    have hcy : (((y - (nwTile tiles).2).toNat : ℤ)) = y - (nwTile tiles).2 := by
      omega
    rw [hcx, hcy]
    have hx2 : (nwTile tiles).1 + (x - (nwTile tiles).1) = x := by ring
    have hy2 : (nwTile tiles).2 + (y - (nwTile tiles).2) = y := by ring
    rw [hx2, hy2, if_pos hmem, hrect]

lemma sliceCity_keys_eq (tiles : List (ℤ × ℤ)) :
    (sliceCity tiles).map Prod.fst =
      (List.range (numXTiles tiles)).flatMap (fun (i : ℕ) =>
        (List.range (numYTiles tiles)).filterMap (fun (j : ℕ) =>
          if ((nwTile tiles).1 + (i : ℤ), (nwTile tiles).2 + (j : ℤ)) ∈ tiles
          then some ((nwTile tiles).1 + (i : ℤ), (nwTile tiles).2 + (j : ℤ))
          else none)) := by
  rw [sliceCity, List.map_flatMap]
  congr 1
  funext i
  rw [List.map_filterMap]
  congr 1
  funext j
  by_cases hmem :
      ((nwTile tiles).1 + (i : ℤ), (nwTile tiles).2 + (j : ℤ)) ∈ tiles
  · rw [if_pos hmem, if_pos hmem]
    rfl
  · rw [if_neg hmem, if_neg hmem]
    rfl

lemma sliceCity_keys_nodup (tiles : List (ℤ × ℤ)) :
    ((sliceCity tiles).map Prod.fst).Nodup := by
  rw [sliceCity_keys_eq, List.nodup_flatMap]
  refine ⟨?_, ?_⟩
  · intro i _
    refine List.Nodup.filterMap ?_ (List.nodup_range _)
    intro j j' b hb hbj
    by_cases hc :
        ((nwTile tiles).1 + (i : ℤ), (nwTile tiles).2 + (j : ℤ)) ∈ tiles
    · rw [if_pos hc] at hb
      by_cases hc2 :
          ((nwTile tiles).1 + (i : ℤ), (nwTile tiles).2 + (j' : ℤ)) ∈ tiles
      · rw [if_pos hc2] at hbj
        simp only [Option.mem_def, Option.some.injEq] at hb hbj
        have h1 : (nwTile tiles).2 + (j : ℤ) = b.2 := by rw [← hb]
        have h2 : (nwTile tiles).2 + (j' : ℤ) = b.2 := by rw [← hbj]
        omega
      · rw [if_neg hc2] at hbj
        exact absurd hbj (by simp)
    · rw [if_neg hc] at hb
      exact absurd hb (by simp)
  · refine (List.pairwise_lt_range _).imp ?_
    intro i i' hlt
    intro b hb hbj
    simp only [List.mem_filterMap] at hb hbj
    obtain ⟨j, _, hj⟩ := hb
    obtain ⟨j2, _, hj2⟩ := hbj
    by_cases hc :
        ((nwTile tiles).1 + (i : ℤ), (nwTile tiles).2 + (j : ℤ)) ∈ tiles
    · rw [if_pos hc] at hj
      by_cases hc2 :
          ((nwTile tiles).1 + (i' : ℤ), (nwTile tiles).2 + (j2 : ℤ)) ∈ tiles
      · rw [if_pos hc2] at hj2
        simp only [Option.some.injEq] at hj hj2
        have h1 : (nwTile tiles).1 + (i : ℤ) = b.1 := by rw [← hj]
        have h2 : (nwTile tiles).1 + (i' : ℤ) = b.1 := by rw [← hj2]
        omega
      · rw [if_neg hc2] at hj2
        exact absurd hj2 (by simp)
    · rw [if_neg hc] at hj
      exact absurd hj (by simp)

lemma sliceCity_length (tiles : List (ℤ × ℤ)) (hnd : tiles.Nodup) :
    (sliceCity tiles).length = tiles.length := by
  have hmemiff : ∀ a : ℤ × ℤ, a ∈ (sliceCity tiles).map Prod.fst ↔ a ∈ tiles := by
    intro a
    constructor
    · intro ha
      obtain ⟨e, he, hfst⟩ := List.mem_map.mp ha
      obtain ⟨⟨ex, ey⟩, rect⟩ := e
      have h := (mem_sliceCity tiles ex ey rect).mp he
      rw [← hfst]
      exact h.1
    · intro ha
      apply List.mem_map.mpr
      refine ⟨((a.1, a.2),
        ((TILE_RESOLUTION : ℤ) * (a.1 - (nwTile tiles).1),
          (TILE_RESOLUTION : ℤ) * (a.2 - (nwTile tiles).2),
          (TILE_RESOLUTION : ℤ) * (a.1 - (nwTile tiles).1 + 1),
          (TILE_RESOLUTION : ℤ) * (a.2 - (nwTile tiles).2 + 1))), ?_, ?_⟩
      · exact (mem_sliceCity tiles a.1 a.2 _).mpr ⟨by simpa using ha, rfl⟩
      · simp
  have hperm := (List.perm_ext_iff_of_nodup
    (sliceCity_keys_nodup tiles) hnd).mpr hmemiff
  calc (sliceCity tiles).length
      = ((sliceCity tiles).map Prod.fst).length := (List.length_map _ _).symm
    _ = tiles.length := hperm.length_eq

lemma mem_runCityAux {α : Type} (f : ℕ → ℕ → ℕ → Option (List α))
    (order : List (ℕ × ℕ)) (hok : ∀ u ∈ order, cityUnit f u.1 u.2 ≠ none)
    (a : α) :
    a ∈ (runCityAux f order).1 ↔
      ∃ u ∈ order, ∃ r, cityUnit f u.1 u.2 = some r ∧ a ∈ r := by
  induction order with
  | nil => simp [runCityAux]
  | cons u rest ih =>
    have hu := hok u (List.mem_cons_self u rest)
    cases hcu : cityUnit f u.1 u.2 with
    | none => exact absurd hcu hu
    | some r =>
      simp only [runCityAux, hcu, List.mem_append, List.mem_cons]
      rw [ih (fun v hv => hok v (List.mem_cons_of_mem u hv))]
      constructor
      · rintro (ha | ⟨v, hv, s, hs, has⟩)
        · exact ⟨u, Or.inl rfl, r, hcu, ha⟩
        · exact ⟨v, Or.inr hv, s, hs, has⟩
      · rintro ⟨v, hv | hv, s, hs, has⟩
        · rw [hv, hcu] at hs
          have hrs := Option.some.inj hs
          exact Or.inl (hrs ▸ has)
        · exact Or.inr ⟨v, hv, s, hs, has⟩

lemma mem_order_iff (u : ℕ × ℕ) : u ∈ orderByCategory ↔ u ∈ orderByZoom := by
  simp only [orderByCategory, orderByZoom, List.mem_flatMap, List.mem_map]
  tauto

section DensityLemmas

variable {P : Type}

lemma isCore_filter_preserved (d : P → P → ℚ) (eps : ℚ) (m : ℕ)
    (pts : List P) (hsym : ∀ a b, d a b = d b a) (p : P) (hp : p ∈ pts)
    (hc : isCore d eps m pts p = true) :
    isCore d eps m (filterByDensity d eps m pts) p = true := by
  rw [isCore, decide_eq_true_eq] at hc ⊢
  rw [filterByDensity, List.countP_filter]
  refine le_trans hc (List.countP_mono_left ?_)
  intro q hq hdq
  rw [Bool.and_eq_true]
  refine ⟨hdq, ?_⟩
  rw [notNoise, Bool.or_eq_true]
  right
  rw [List.any_eq_true]
  refine ⟨p, hp, ?_⟩
  rw [Bool.and_eq_true]
  refine ⟨by rw [isCore, decide_eq_true_eq]; exact hc, ?_⟩
  rw [decide_eq_true_eq] at hdq ⊢
  rw [hsym q p]
  exact hdq

lemma notNoise_filter_preserved (d : P → P → ℚ) (eps : ℚ) (m : ℕ)
    (pts : List P) (hsym : ∀ a b, d a b = d b a) (p : P) (hp : p ∈ pts)
    (hn : notNoise d eps m pts p = true) :
    notNoise d eps m (filterByDensity d eps m pts) p = true := by
  rw [notNoise, Bool.or_eq_true] at hn
  rcases hn with hc | hany
  · rw [notNoise, Bool.or_eq_true]
    exact Or.inl (isCore_filter_preserved d eps m pts hsym p hp hc)
  · rw [List.any_eq_true] at hany
    obtain ⟨q, hq, hqc⟩ := hany
    rw [Bool.and_eq_true] at hqc
    obtain ⟨hqcore, hdpq⟩ := hqc
    have hqmem : q ∈ filterByDensity d eps m pts := by
      rw [filterByDensity, List.mem_filter]
      refine ⟨hq, ?_⟩
      rw [notNoise, Bool.or_eq_true]
      exact Or.inl hqcore
    rw [notNoise, Bool.or_eq_true]
    right
    rw [List.any_eq_true]
    refine ⟨q, hqmem, ?_⟩
    rw [Bool.and_eq_true]
    exact ⟨isCore_filter_preserved d eps m pts hsym q hq hqcore, hdpq⟩

end DensityLemmas

/-! # Claim theorems -/

/-! ## Claim C4: projection round trip -/

/-- Claim C4 (amended): for every latitude strictly between -90 and 90 and
every longitude in [-180, 180], at every zoom level, the forward conversion
succeeds (the guarded embedding, which returns none exactly where the
source's math.log raises ValueError, returns the projected point) and
converting back recovers (lat, lng) exactly (in particular within the 1e-9
tolerance).  lat = -90 is excluded because the source raises ValueError
there (see the counterexample); lat = 90 is excluded because the exact
Mercator y value diverges there (log of tan of pi/2), so only rounding lets
the floating-point source return at all. -/
theorem mercator_round_trip (lat lng : ℝ) (zoom : ℕ)
    (h1 : -90 < lat) (h2 : lat < 90) (h3 : -180 ≤ lng) (h4 : lng ≤ 180) :
    convert_coords_to_mercator_point_opt lat lng zoom =
        some (convert_coords_to_mercator_point lat lng zoom) ∧
      convert_point_to_coords
        (convert_coords_to_mercator_point lat lng zoom).1
        (convert_coords_to_mercator_point lat lng zoom).2 zoom =
        (lat, lng) := by
  refine ⟨mercator_point_opt_eq_some lat lng zoom h1 h2, ?_⟩
  have hπ := Real.pi_pos
  have hπne : (π : ℝ) ≠ 0 := ne_of_gt hπ
  have hW : (0 : ℝ) < 2 ^ zoom := by positivity
  have hWne : ((2 : ℝ) ^ zoom) ≠ 0 := ne_of_gt hW
  have hθ0 : 0 < lat * (π / 180) / 2 + π / 4 := by nlinarith
  have hθ1 : lat * (π / 180) / 2 + π / 4 < π / 2 := by nlinarith
  have htan := Real.tan_pos_of_pos_of_lt_pi_div_two hθ0 hθ1
  simp only [convert_coords_to_mercator_point, convert_point_to_coords]
  have hmerc :
      ((2 : ℝ) ^ zoom / 2 -
            ((2 : ℝ) ^ zoom / 2 -
              Real.log (Real.tan (lat * (π / 180) / 2 + π / 4)) * (2 : ℝ) ^ zoom /
                (2 * π))) * (2 * π) / (2 : ℝ) ^ zoom =
        Real.log (Real.tan (lat * (π / 180) / 2 + π / 4)) := by
    field_simp
    ring
  rw [hmerc, Real.exp_log htan, Real.arctan_tan (by linarith) hθ1]
  have hx : (lng + 180) * ((2 : ℝ) ^ zoom / 360) * 360 / (2 : ℝ) ^ zoom - 180 = lng := by
    field_simp
  have hy : (lat * (π / 180) / 2 + π / 4 - π / 4) * 2 * 180 / π = lat := by
    field_simp
    ring
  rw [hx, hy]

/-- Claim C4 counterexample: at lat = -90 (a valid latitude for the claim
as stated), lng = 0, zoom 1, the tangent in the forward formula is exactly
zero (latRad/2 + pi/4 = 0), so the source computes math.log(0.0), which
raises ValueError: the conversion fails instead of returning a point, and
no round trip can recover (-90, 0).  The guarded embedding returns none on
exactly this error path. -/
theorem mercator_round_trip_fails_at_south_pole :
    convert_coords_to_mercator_point_opt (-90) 0 1 = none := by
  have harg : (-90 : ℝ) * (π / 180) / 2 + π / 4 = 0 := by ring
  simp only [convert_coords_to_mercator_point_opt]
  rw [harg, Real.tan_zero, if_pos le_rfl]

/-- Closed witness for the amended round-trip theorem at a concrete interior
input. -/
theorem mercator_round_trip_witness :
    convert_coords_to_mercator_point_opt 40 (-74) 12 =
        some (convert_coords_to_mercator_point 40 (-74) 12) ∧
      convert_point_to_coords (convert_coords_to_mercator_point 40 (-74) 12).1
        (convert_coords_to_mercator_point 40 (-74) 12).2 12 = (40, -74) :=
  mercator_round_trip 40 (-74) 12 (by norm_num) (by norm_num) (by norm_num)
    (by norm_num)

/-! ## Claim C10: removal loop versus pure filter -/

/-- Claim C10 (amended): for every duplicate-free point list and every label
assignment with one label per index, the reverse-enumeration removal loop
produces exactly the pure filter keeping, in order, the points whose label
is not -1.  With duplicate points the loop can remove a point other than the
labelled one (see the counterexample), so the no-duplicates hypothesis is
required in place of the original "equal points receive equal labels". -/
theorem noise_loop_eq_pure_filter {P : Type} [DecidableEq P] [Inhabited P]
    (pts : List P) (labels : List ℤ)
    (hnd : pts.Nodup) (hlen : labels.length = pts.length) :
    removeNoise pts labels = filterNoise pts labels :=
  removeNoise_eq_filterNoise pts labels hnd hlen

/-- Closed witness for the loop/filter equivalence on a concrete
duplicate-free input. -/
theorem noise_loop_eq_pure_filter_witness :
    removeNoise [((0 : ℚ), (0 : ℚ)), (1, 1), (2, 2)] [-1, 0, -1] =
      filterNoise [((0 : ℚ), (0 : ℚ)), (1, 1), (2, 2)] [-1, 0, -1] :=
  noise_loop_eq_pure_filter _ _ (by decide) (by decide)

/-- Claim C10 counterexample: on the point list [A, B, A] with labels
[-1, 0, -1] (a label assignment giving equal points equal labels, as the
claim demands), the loop returns [A] while the pure filter returns [B]:
the final iteration reads the shifted list and removes B, the labelled
cluster member, keeping a noise point instead. -/
theorem noise_loop_ne_pure_filter_on_duplicates :
    removeNoise [((0 : ℚ), (0 : ℚ)), (1, 1), (0, 0)] [-1, 0, -1] = [(0, 0)] ∧
      filterNoise [((0 : ℚ), (0 : ℚ)), (1, 1), (0, 0)] [-1, 0, -1] = [(1, 1)] ∧
      (([((0 : ℚ), (0 : ℚ)), (1, 1), (0, 0)].zip [(-1 : ℤ), 0, -1]).Pairwise
        fun a b => a.1 = b.1 → a.2 = b.2) := by
  refine ⟨by decide, by decide, by decide⟩

/-! ## Claim C1: edge-bleed neighbor rule -/

/-- Claim C1 (amended): a compass neighbor enters the working tile set iff
the border distance used by the code is below dotsize, where the west and
north distances are pixel_x and pixel_y and the east and south distances
are TILE_RESOLUTION - pixel_x and TILE_RESOLUTION - pixel_y (measured
against the full tile resolution 256, one more than the largest normalized
pixel coordinate 255); diagonals need both of their conditions.  A point at
pixel_x = 0 with dotsize above 0 always adds the west neighbor, but a point
at pixel_x = TILE_RESOLUTION - 1 adds the east neighbor only when dotsize
is above 1, because its east distance is 256 - 255 = 1 (the original
"dotsize > 0" is weakened to "dotsize > 1" for the east case). -/
theorem edge_bleed_neighbor_rule (d : ℚ) (x y : ℤ) (px py : ℚ)
    (tiles : List (ℤ × ℤ)) :
    (∀ t, t ∈ neighborStep d x y px py tiles ↔
      (t ∈ tiles ∨
        (px < d ∧ t = (x - 1, y)) ∨
        (px < d ∧ py < d ∧ t = (x - 1, y - 1)) ∨
        (px < d ∧ (TILE_RESOLUTION : ℚ) - py < d ∧ t = (x - 1, y + 1)) ∨
        (py < d ∧ t = (x, y - 1)) ∨
        ((TILE_RESOLUTION : ℚ) - px < d ∧ t = (x + 1, y)) ∨
        ((TILE_RESOLUTION : ℚ) - px < d ∧ py < d ∧ t = (x + 1, y - 1)) ∨
        ((TILE_RESOLUTION : ℚ) - px < d ∧ (TILE_RESOLUTION : ℚ) - py < d ∧
          t = (x + 1, y + 1)) ∨
        ((TILE_RESOLUTION : ℚ) - py < d ∧ t = (x, y + 1)))) ∧
    (px = 0 → 0 < d → (x - 1, y) ∈ neighborStep d x y px py tiles) ∧
    (px = (TILE_RESOLUTION : ℚ) - 1 → 1 < d →
      (x + 1, y) ∈ neighborStep d x y px py tiles) := by
  refine ⟨fun t => mem_neighborStep d x y px py tiles t, ?_, ?_⟩
  · intro h0 hd
    exact (mem_neighborStep d x y px py tiles _).mpr
      (Or.inr (Or.inl ⟨h0 ▸ hd, rfl⟩))
  · intro h0 hd
    refine (mem_neighborStep d x y px py tiles _).mpr
      (Or.inr (Or.inr (Or.inr (Or.inr (Or.inr (Or.inl ⟨?_, rfl⟩))))))
    rw [h0]
    linarith

/-- Closed witness for the edge-bleed rule: with dotsize 2, a point at
pixel_x = 0 adds the west neighbor and a point at pixel_x = 255 adds the
east neighbor. -/
theorem edge_bleed_neighbor_rule_witness :
    ((-1 : ℤ), (0 : ℤ)) ∈ neighborStep (2 : ℚ) 0 0 0 128 [] ∧
      ((1 : ℤ), (0 : ℤ)) ∈ neighborStep (2 : ℚ) 0 0 255 128 [] :=
  ⟨(edge_bleed_neighbor_rule 2 0 0 0 128 []).2.1 rfl (by norm_num),
    (edge_bleed_neighbor_rule 2 0 0 255 128 []).2.2
      (by norm_num [TILE_RESOLUTION]) (by norm_num)⟩

/-- Claim C1 counterexample: with dotsize 1 (an allowed value above 0), a
point at pixel_x = TILE_RESOLUTION - 1 = 255 does NOT add the east
neighbor, because the code compares 256 - 255 = 1 < 1, which is false; the
original claim asserted the east neighbor is always added whenever
dotsize is above 0. -/
theorem edge_bleed_east_fails_at_dotsize_one :
    ((1 : ℤ), (0 : ℤ)) ∉ neighborStep (1 : ℚ) 0 0 255 128 [] := by
  rw [mem_neighborStep]
  norm_num [TILE_RESOLUTION]

/-! ## Claim C5: canvas slicing -/

/-- Claim C5: when the city-wide canvas is sliced, a grid cell (i, j) of
the bounding rectangle produces a tile image iff tile
(nwTile.x + i, nwTile.y + j) is a member of the working tile set, cropped
from the canvas sub-rectangle starting at (TILE_RESOLUTION * i,
TILE_RESOLUTION * j); tiles inside the bounding rectangle but not in the
set are skipped, and exactly tiles.length tile images are produced. -/
theorem canvas_slicing (tiles : List (ℤ × ℤ)) (hnd : tiles.Nodup) :
    (∀ (x y : ℤ) (rect : ℤ × ℤ × ℤ × ℤ),
      ((x, y), rect) ∈ sliceCity tiles ↔
        ((x, y) ∈ tiles ∧
          rect = ((TILE_RESOLUTION : ℤ) * (x - (nwTile tiles).1),
            (TILE_RESOLUTION : ℤ) * (y - (nwTile tiles).2),
            (TILE_RESOLUTION : ℤ) * (x - (nwTile tiles).1 + 1),
            (TILE_RESOLUTION : ℤ) * (y - (nwTile tiles).2 + 1)))) ∧
      (sliceCity tiles).length = tiles.length :=
  ⟨fun x y rect => mem_sliceCity tiles x y rect, sliceCity_length tiles hnd⟩

/-- Closed witness for the slicing theorem on the spec example set
{(0,0), (1,0), (0,1)}: exactly 3 tiles are emitted although the bounding
rectangle holds 4 cells. -/
theorem canvas_slicing_witness :
    (sliceCity [((0 : ℤ), (0 : ℤ)), (1, 0), (0, 1)]).length = 3 := by
  have h := (canvas_slicing [((0 : ℤ), (0 : ℤ)), (1, 0), (0, 1)] (by decide)).2
  simpa using h

/-! ## Claim C9: empty units are skipped -/

/-- Claim C9: a (category, zoom) unit with zero fetched points, or whose
points are all labelled noise by the density filter, terminates with no
tile rendered and no tile uploaded, and without an error (the embedded
pipeline is total and returns the empty upload list). -/
theorem empty_unit_skips (category zoom : ℕ)
    (dbscan : ℝ → ℕ → List (ℝ × ℝ) → List ℤ) (pts : List (ℝ × ℝ)) :
    cityRun category zoom dbscan [] = [] ∧
      ((ZOOM_PARAMETERS zoom).cluster = true →
        (dbscan (((ZOOM_PARAMETERS zoom).cluster_epsilon : ℝ) / kms_per_radian)
            (ZOOM_PARAMETERS zoom).cluster_neighbors pts).length = pts.length →
        (∀ i, i < (dbscan
            (((ZOOM_PARAMETERS zoom).cluster_epsilon : ℝ) / kms_per_radian)
            (ZOOM_PARAMETERS zoom).cluster_neighbors pts).length →
          (dbscan (((ZOOM_PARAMETERS zoom).cluster_epsilon : ℝ) / kms_per_radian)
            (ZOOM_PARAMETERS zoom).cluster_neighbors pts).getD i 0 = -1) →
        cityRun category zoom dbscan pts = []) := by
  constructor
  · rw [cityRun]
    simp
  · intro hflag hlen hall
    rw [cityRun]
    by_cases h0 : 0 < pts.length
    · rw [if_pos h0]
      have hcf : clusterFilter zoom dbscan pts = [] := by
        rw [clusterFilter, if_pos hflag]
        exact removeNoise_all_noise pts _ hlen hall
      rw [hcf]
      simp
    · rw [if_neg h0]

/-- Closed witness for the skip behavior: empty fetch and an all-noise
labelling both yield the empty upload list. -/
theorem empty_unit_skips_witness :
    cityRun 1 10 (fun _ _ _ => [-1]) [] = [] ∧
      cityRun 1 10 (fun _ _ _ => [-1]) [((0 : ℝ), (0 : ℝ))] = [] :=
  ⟨(empty_unit_skips 1 10 (fun _ _ _ => [-1]) []).1,
    (empty_unit_skips 1 10 (fun _ _ _ => [-1]) [((0 : ℝ), (0 : ℝ))]).2 rfl rfl
      (by
        intro i hi
        have hi0 : i = 0 := by simpa using hi
        rw [hi0]
        rfl)⟩

/-! ## Claim C7: the filtering step versus per-label retention -/

/-- Claim C7 failing-input evaluation: on a fetched list holding the same
coordinate pair twice (an isolated venue stored twice, labelled noise) next
to a four-member cluster (labels 0), the clustering branch keeps the
duplicated noise point and drops cluster member (10, 10), so the step does
not keep a point iff its DBSCAN label is not -1. -/
theorem cluster_step_keeps_noise_on_duplicates :
    clusterFilter 10 (fun _ _ _ => [-1, 0, 0, 0, 0, -1])
        [((0 : ℚ), (0 : ℚ)), (10, 10), (10, 10001/1000), (10001/1000, 10),
          (10001/1000, 10001/1000), (0, 0)] =
      [(10, 10001/1000), (10001/1000, 10), (10001/1000, 10001/1000),
        (0, 0)] ∧
      filterNoise
          [((0 : ℚ), (0 : ℚ)), (10, 10), (10, 10001/1000), (10001/1000, 10),
            (10001/1000, 10001/1000), (0, 0)] [-1, 0, 0, 0, 0, -1] =
        [(10, 10), (10, 10001/1000), (10001/1000, 10),
          (10001/1000, 10001/1000)] := by
  constructor
  · rfl
  · rfl

/-! ## Claim C2: orchestration order independence -/

/-- Claim C2: with the per-unit generation a deterministic function of
(category, zoom) (fixed deterministic point source), the category-major and
zoom-major traversals of the full category-by-zoom matrix produce the same
elements: unconditionally for the per-tile runner, and for the city runner
whenever every unit succeeds within its retry budget (a unit whose retry
also fails aborts the remainder of a run, see the claim about retries). -/
theorem run_order_independence {α : Type} (gen : ℕ → ℕ → List α)
    (f : ℕ → ℕ → ℕ → Option (List α)) :
    (∀ a, a ∈ runByCategoryTiles gen ↔ a ∈ runByZoomTiles gen) ∧
      ((∀ c z, cityUnit f c z ≠ none) →
        ∀ a, (a ∈ (runCityAux f orderByCategory).1 ↔
          a ∈ (runCityAux f orderByZoom).1)) := by
  constructor
  · intro a
    simp only [runByCategoryTiles, runByZoomTiles, List.mem_flatMap]
    tauto
  · intro hok a
    rw [mem_runCityAux f _ (fun u _ => hok u.1 u.2) a,
      mem_runCityAux f _ (fun u _ => hok u.1 u.2) a]
    constructor
    · rintro ⟨u, hu, r, hr, ha⟩
      exact ⟨u, (mem_order_iff u).mp hu, r, hr, ha⟩
    · rintro ⟨u, hu, r, hr, ha⟩
      exact ⟨u, (mem_order_iff u).mpr hu, r, hr, ha⟩

/-- Closed witness for order independence of the city runner with an
everywhere-succeeding unit function. -/
theorem run_order_independence_witness :
    (0 : ℕ) ∈ (runCityAux (fun _ _ _ => some [0]) orderByCategory).1 ↔
      (0 : ℕ) ∈ (runCityAux (fun _ _ _ => some [0]) orderByZoom).1 :=
  (run_order_independence (fun _ _ => [0]) (fun _ _ _ => some [0])).2
    (fun c z => by simp [cityUnit]) 0

/-! ## Claim C3: retry once, then abort -/

/-- Claim C3 (amended): a failing unit is retried exactly once, at the
search radius reduced by 2500 (a successful first attempt is never
retried); but when the retry also fails the exception escapes the loop, so
the run aborts at that unit and the remaining (category, zoom) units are
not processed (the original claim said the run continues). -/
theorem city_retry_then_abort {α : Type} (f : ℕ → ℕ → ℕ → Option (List α))
    (c z : ℕ) (rest : List (ℕ × ℕ)) (r : List α) :
    (f c z RADIUS = none → cityUnit f c z = f c z (RADIUS - 2500)) ∧
      (f c z RADIUS = some r → cityUnit f c z = some r) ∧
      (cityUnit f c z = none →
        runCityAux f ((c, z) :: rest) = ([], some (c, z))) ∧
      (cityUnit f c z = some r →
        runCityAux f ((c, z) :: rest) =
          (r ++ (runCityAux f rest).1, (runCityAux f rest).2)) := by
  refine ⟨?_, ?_, ?_, ?_⟩
  · intro h
    rw [cityUnit, h]
  · intro h
    rw [cityUnit, h]
  · intro h
    simp only [runCityAux, h]
  · intro h
    simp only [runCityAux, h]

/-- Closed witness for the retry behavior: a unit failing at the full
radius is rerun at radius RADIUS - 2500, and a unit failing twice aborts
the run before its sibling. -/
theorem city_retry_then_abort_witness :
    cityUnit (fun _ _ rad => if rad = RADIUS then none
        else some [(7 : ℕ)]) 1 10 =
      (fun _ _ rad => if rad = RADIUS then none else some [(7 : ℕ)]) 1 10
        (RADIUS - 2500) ∧
      runCityAux (fun _ _ _ => (none : Option (List ℕ)))
          [((1 : ℕ), (10 : ℕ)), (2, 10)] = ([], some (1, 10)) :=
  ⟨(city_retry_then_abort (fun _ _ rad => if rad = RADIUS then none
      else some [(7 : ℕ)]) 1 10 [] []).1 (by simp),
    (city_retry_then_abort (fun _ _ _ => (none : Option (List ℕ))) 1 10
      [(2, 10)] []).2.2.1 rfl⟩

/-- Claim C3 counterexample: with a unit function that fails both attempts
only at (category 1, zoom 10) and succeeds everywhere else, the
category-major city run produces no outputs at all and stops at (1, 10),
although the sibling unit (2, 10) would succeed: a double failure aborts
the run instead of marking the unit failed and continuing. -/
theorem city_abort_kills_siblings :
    runCityAux (fun c z _ => if c = 1 ∧ z = 10 then none else some [(c, z)])
        orderByCategory = ([], some (1, 10)) ∧
      cityUnit (fun c z _ => if c = 1 ∧ z = 10 then none else some [(c, z)])
          2 10 = some [(2, 10)] := by
  constructor
  · rfl
  · rfl

/-! ## Claim C8: density-filter idempotence -/

/-- Claim C8: density filtering is idempotent: for any symmetric distance
(haversine is symmetric) and any epsilon and neighbor threshold, applying
the noise-dropping filter to its own output returns that output unchanged:
core points keep their full eps-neighborhood (noise is never within eps of
a core point), so retained points remain retained. -/
theorem density_filter_idempotent {P : Type}
    (d : P → P → ℚ) (eps : ℚ) (m : ℕ) (pts : List P)
    (hsym : ∀ a b, d a b = d b a) :
    filterByDensity d eps m (filterByDensity d eps m pts) =
      filterByDensity d eps m pts := by
  have hall : ∀ p ∈ filterByDensity d eps m pts,
      notNoise d eps m (filterByDensity d eps m pts) p = true := by
    intro p hp
    have hp2 := hp
    rw [filterByDensity, List.mem_filter] at hp2
    exact notNoise_filter_preserved d eps m pts hsym p hp2.1 hp2.2
  calc filterByDensity d eps m (filterByDensity d eps m pts)
      = (filterByDensity d eps m pts).filter
          (notNoise d eps m (filterByDensity d eps m pts)) := rfl
    _ = filterByDensity d eps m pts := List.filter_eq_self.mpr hall

/-- Closed witness for idempotence at a concrete input: absolute distance
on the rationals, eps 1, threshold 2, points 0, 1, 10 (the isolated 10 is
dropped once and stays dropped). -/
theorem density_filter_idempotent_witness :
    filterByDensity (fun a b => |a - b|) 1 2
        (filterByDensity (fun a b => |a - b|) 1 2 [(0 : ℚ), 1, 10]) =
      filterByDensity (fun a b => |a - b|) 1 2 [(0 : ℚ), 1, 10] :=
  density_filter_idempotent (fun a b => |a - b|) 1 2 [(0 : ℚ), 1, 10]
    fun a b => abs_sub_comm a b

/-! ## Claim C6: tile coordinates are componentwise floors -/

/-- Claim C6: convert_coords_to_tile is the componentwise floor (towards
negative infinity) of convert_coords_to_mercator_point: each tile component
is the unique integer t with t less than or equal to the Mercator component,
which in turn is strictly below t + 1, so fractional coordinates such as
(5.9, 3.1) go to (5, 3) and negative fractional coordinates floor downward. -/
theorem tile_is_componentwise_floor (lat lng : ℝ) (zoom : ℕ) :
    ((convert_coords_to_tile lat lng zoom).1 : ℝ) ≤
        (convert_coords_to_mercator_point lat lng zoom).1 ∧
      (convert_coords_to_mercator_point lat lng zoom).1 <
        (convert_coords_to_tile lat lng zoom).1 + 1 ∧
      ((convert_coords_to_tile lat lng zoom).2 : ℝ) ≤
        (convert_coords_to_mercator_point lat lng zoom).2 ∧
      (convert_coords_to_mercator_point lat lng zoom).2 <
        (convert_coords_to_tile lat lng zoom).2 + 1 ∧
      convert_coords_to_tile lat lng zoom =
        (⌊(convert_coords_to_mercator_point lat lng zoom).1⌋,
          ⌊(convert_coords_to_mercator_point lat lng zoom).2⌋) := by
  refine ⟨?_, ?_, ?_, ?_, rfl⟩
  · exact Int.floor_le _
  · exact Int.lt_floor_add_one _
  · exact Int.floor_le _
  · exact Int.lt_floor_add_one _

end Heatmap

